import Mathlib

/-!
Shallow embedding of the HTTP key-value server: a bounded in-memory
cache (Go `Cache` with a `map[string]string`, a size bound and hit/miss
counters) in front of a durable store, with the three HTTP handlers
`handleGet`, `handlePut`, `handleDelete` doing cache-aside.

Embedding choices:
* a Go `map[string]string` becomes an association list with distinct
  keys; `for k := range m` iteration order is refined to the
  deterministic choice of the first listed pair (`evictOne`), which is
  one of the behaviours the Go runtime may exhibit;
* the `int`/`int64` fields only ever count upwards in the claims at
  hand, so they are embedded as `Nat`;
* a database call is embedded by passing the durable contents as an
  association list together with a `StoreOutcome` saying whether the
  call itself succeeds (`fail` covers every non-`ErrNoRows` error).
-/

namespace KVServer

/-- Association-list lookup: the embedding of reading a Go map
(`val, ok := m[key]`); a missing key yields `none` (Go returns the zero
value and `ok = false`). -/
def lookupKey : List (String × String) → String → Option String
  | [], _ => none
  | (k, v) :: rest, key => if k = key then some v else lookupKey rest key

/-- Association-list update: the embedding of a Go map assignment
(`m[key] = value`): overwrite the entry if the key is present, append a
new entry otherwise. -/
def insertKey : List (String × String) → String → String → List (String × String)
  | [], key, value => [(key, value)]
  | (k, v) :: rest, key, value =>
    if k = key then (key, value) :: rest
    else (k, v) :: insertKey rest key value

/-- Association-list removal: the embedding of Go `delete(m, key)`;
removes every pair carrying the key (on the reachable lists keys are
distinct, so at most one pair goes). -/
def eraseKey : List (String × String) → String → List (String × String)
  | [], _ => []
  | (k, v) :: rest, key =>
    if k = key then eraseKey rest key else (k, v) :: eraseKey rest key

/-- Embedding of the eviction loop
`for k := range c.items { delete(c.items, k); break }`: remove one
arbitrary entry, deterministically refined here to the first listed
pair; on an empty map the loop body never runs. -/
def evictOne : List (String × String) → List (String × String)
  | [] => []
  | _ :: rest => rest

/-- The Go `Cache` struct.  The `sync.RWMutex` field has no sequential
content and is dropped; `items` is the map, `maxSize` the capacity,
`hits`/`misses` the two counters. -/
structure Cache where
  items : List (String × String)
  maxSize : Nat
  hits : Nat
  misses : Nat
  deriving Repr, DecidableEq

/-- Embedding of Go `Cache.Get`: look the key up, bump exactly one of
the two counters, and return `(val, ok)` together with the updated
cache (the Go method mutates the receiver). -/
def Cache.Get (c : Cache) (key : String) : String × Bool × Cache :=
  match lookupKey c.items key with
  | some v => (v, true, { c with hits := c.hits + 1 })
  | none => ("", false, { c with misses := c.misses + 1 })

/-- Embedding of Go `Cache.Set`: when `len(items) >= maxSize` first run
the eviction loop (note: no check whether `key` is already resident),
then write `items[key] = value`. -/
def Cache.Set (c : Cache) (key value : String) : Cache :=
  let items := if c.maxSize ≤ c.items.length then evictOne c.items else c.items
  { c with items := insertKey items key value }

/-- Embedding of Go `Cache.Delete`: `delete(c.items, key)`. -/
def Cache.Delete (c : Cache) (key : String) : Cache :=
  { c with items := eraseKey c.items key }

/-- Embedding of Go `NewCache`: empty map, zero counters. -/
def NewCache (maxSize : Nat) : Cache :=
  { items := [], maxSize := maxSize, hits := 0, misses := 0 }

/-- One cache-level operation, for stating invariants over call
sequences. -/
inductive Op where
  | get (key : String)
  | set (key value : String)
  | del (key : String)
  deriving Repr, DecidableEq

/-- Run a sequence of cache operations (the value returned by `Get` is
discarded; only the state matters for the invariants). -/
def Cache.run (c : Cache) : List Op → Cache
  | [] => c
  | op :: rest =>
    (match op with
     | .get k => (c.Get k).2.2
     | .set k v => c.Set k v
     | .del k => c.Delete k).run rest

/-- Number of `get` operations in a sequence. -/
def countGets : List Op → Nat
  | [] => 0
  | .get _ :: rest => countGets rest + 1
  | .set _ _ :: rest => countGets rest
  | .del _ :: rest => countGets rest

/-- Whether a database call succeeds; `fail` stands for any error other
than `sql.ErrNoRows` (connectivity, constraint violation, ...). -/
inductive StoreOutcome where
  | ok
  | fail
  deriving Repr, DecidableEq

/-- The Go `Server`: the durable store contents (the `kv_store` table,
keyed on its primary key) plus the cache. -/
structure Server where
  db : List (String × String)
  cache : Cache
  deriving Repr, DecidableEq

/-- HTTP responses the three handlers can produce. -/
inductive Resp where
  /-- 200 with the value in the body (`w.Write([]byte(val))`). -/
  | body (s : String)
  /-- 200 with no body (`w.WriteHeader(http.StatusOK)`). -/
  | okNoBody
  /-- 404 `Key not found`. -/
  | notFound
  /-- 500 `Database error`. -/
  | dbError
  deriving Repr, DecidableEq

/-- Embedding of Go `Server.handleGet`: try the cache; on a hit answer
from it; on a miss run `SELECT value FROM kv_store WHERE key = $1`
(outcome `q`; on success `ErrNoRows` is decided by the table contents),
filling the cache with `Set` only when a row is found.  The trailing
`Bool` records whether the database was queried at all. -/
def handleGet (s : Server) (key : String) (q : StoreOutcome) :
    Resp × Server × Bool :=
  match s.cache.Get key with
  | (val, true, c) => (Resp.body val, { s with cache := c }, false)
  | (_, false, c) =>
    match q with
    | .fail => (Resp.dbError, { s with cache := c }, true)
    | .ok =>
      match lookupKey s.db key with
      | none => (Resp.notFound, { s with cache := c }, true)
      | some v => (Resp.body v, { s with cache := c.Set key v }, true)

/-- Embedding of Go `Server.handlePut` after the body has been read:
run the upsert `INSERT ... ON CONFLICT (key) DO UPDATE` (outcome `q`);
only on success update the cache with `Set` and answer 200. -/
def handlePut (s : Server) (key value : String) (q : StoreOutcome) :
    Resp × Server :=
  match q with
  | .fail => (Resp.dbError, s)
  | .ok =>
    (Resp.okNoBody,
      { db := insertKey s.db key value, cache := s.cache.Set key value })

/-- Embedding of Go `Server.handleDelete`: run
`DELETE FROM kv_store WHERE key = $1` (outcome `q`); only on success
remove the key from the cache and answer 200. -/
def handleDelete (s : Server) (key : String) (q : StoreOutcome) :
    Resp × Server :=
  match q with
  | .fail => (Resp.dbError, s)
  | .ok =>
    (Resp.okNoBody,
      { db := eraseKey s.db key, cache := s.cache.Delete key })

/-- One server-level request, for stating properties over request
sequences; each carries the outcome of its store call. -/
inductive SOp where
  | get (key : String) (q : StoreOutcome)
  | put (key value : String) (q : StoreOutcome)
  | del (key : String) (q : StoreOutcome)
  deriving Repr, DecidableEq

/-- State reached after one request. -/
def Server.step (s : Server) : SOp → Server
  | .get k q => (handleGet s k q).2.1
  | .put k v q => (handlePut s k v q).2
  | .del k q => (handleDelete s k q).2

/-- Run a sequence of requests. -/
def Server.run (s : Server) : List SOp → Server
  | [] => s
  | op :: rest => (s.step op).run rest

/-- Whether a request leaves key `k` alone: it is neither a write to
`k` nor a removal of `k` (reads of `k` are allowed). -/
def avoidsKey (k : String) : SOp → Bool
  | .get _ _ => true
  | .put k2 _ _ => k2 != k
  | .del k2 _ => k2 != k

/-- Size of the buffer `body := make([]byte, 1024*1024)` in
`handlePut`. -/
def MaxBodySize : Nat := 1024 * 1024

/-- What `n, _ := r.Body.Read(body)` yields when the inbound payload
arrives as the given chunks: only the first chunk, capped at the buffer
size; later chunks are never read. -/
def firstRead (chunks : List String) : String :=
  match chunks with
  | [] => ""
  | chunk :: _ => String.mk (chunk.toList.take MaxBodySize)

/-- The full inbound payload: the concatenation of all chunks. -/
def fullPayload (chunks : List String) : String :=
  String.join chunks

/-- Embedding of Go `Server.handlePut` from the raw request body: the
payload arrives as `chunks`, `readErr` says whether the (single)
`Read` call also reported an error — the Go code discards it
(`n, _ := r.Body.Read(body)`), so the parameter is unused. -/
def handlePutRaw (s : Server) (key : String) (chunks : List String)
    (_readErr : Bool) (q : StoreOutcome) : Resp × Server :=
  handlePut s key (firstRead chunks) q

/-! Association-list lemmas. -/

theorem lookupKey_insertKey_self (m : List (String × String)) (k v : String) :
    lookupKey (insertKey m k v) k = some v := by
  induction m with
  | nil => simp [insertKey, lookupKey]
  | cons p rest ih =>
    obtain ⟨a, b⟩ := p
    by_cases h : a = k
    · simp [insertKey, lookupKey, h]
    · simp [insertKey, lookupKey, h, ih]

theorem lookupKey_insertKey_ne (m : List (String × String)) (k v k2 : String)
    (h : k2 ≠ k) : lookupKey (insertKey m k v) k2 = lookupKey m k2 := by
  induction m with
  | nil => simp [insertKey, lookupKey, Ne.symm h]
  | cons p rest ih =>
    obtain ⟨a, b⟩ := p
    by_cases ha : a = k
    · subst ha
      simp [insertKey, lookupKey, Ne.symm h]
    · by_cases ha2 : a = k2
      · simp [insertKey, lookupKey, ha, ha2, h]
      · simp [insertKey, lookupKey, ha, ha2, ih]

theorem length_insertKey_le (m : List (String × String)) (k v : String) :
    (insertKey m k v).length ≤ m.length + 1 := by
  induction m with
  | nil => simp [insertKey]
  | cons p rest ih =>
    obtain ⟨a, b⟩ := p
    by_cases h : a = k
    · simp [insertKey, h]
    · simpa [insertKey, h] using ih

theorem lookupKey_eraseKey_ne (m : List (String × String)) (k k2 : String)
    (h : k2 ≠ k) : lookupKey (eraseKey m k) k2 = lookupKey m k2 := by
  induction m with
  | nil => simp [eraseKey]
  | cons p rest ih =>
    obtain ⟨a, b⟩ := p
    by_cases ha : a = k
    · subst ha
      simp [eraseKey, lookupKey, Ne.symm h, ih]
    · by_cases ha2 : a = k2
      · simp [eraseKey, lookupKey, ha, ha2, h]
      · simp [eraseKey, lookupKey, ha, ha2, ih]

theorem eraseKey_sublist (m : List (String × String)) (k : String) :
    (eraseKey m k).Sublist m := by
  induction m with
  | nil => simp [eraseKey]
  | cons p rest ih =>
    obtain ⟨a, b⟩ := p
    by_cases h : a = k
    · simp only [eraseKey, if_pos h]
      exact ih.cons (a, b)
    · simp only [eraseKey, if_neg h]
      exact ih.cons₂ (a, b)

theorem evictOne_sublist (m : List (String × String)) :
    (evictOne m).Sublist m := by
  cases m with
  | nil => simp [evictOne]
  | cons p rest =>
    simp only [evictOne]
    exact (List.Sublist.refl rest).cons p

theorem mem_of_lookupKey (m : List (String × String)) (k w : String)
    (h : lookupKey m k = some w) : (k, w) ∈ m := by
  induction m with
  | nil => simp [lookupKey] at h
  | cons p rest ih =>
    obtain ⟨a, b⟩ := p
    by_cases ha : a = k
    · subst ha
      simp [lookupKey] at h
      simp [h]
    · simp [lookupKey, ha] at h
      exact List.mem_cons_of_mem _ (ih h)

theorem lookupKey_eq_none_of_not_mem (m : List (String × String)) (k : String)
    (h : k ∉ m.map Prod.fst) : lookupKey m k = none := by
  induction m with
  | nil => simp [lookupKey]
  | cons p rest ih =>
    obtain ⟨a, b⟩ := p
    rw [List.map_cons] at h
    have h1 : ¬ k = a := fun hk => h (hk ▸ List.mem_cons_self _ _)
    have h2 : k ∉ rest.map Prod.fst := fun hk => h (List.mem_cons_of_mem _ hk)
    simp [lookupKey, Ne.symm h1, ih h2]

theorem lookupKey_of_mem_nodup (m : List (String × String)) (k w : String)
    (hnd : (m.map Prod.fst).Nodup) (hm : (k, w) ∈ m) :
    lookupKey m k = some w := by
  induction m with
  | nil => simp at hm
  | cons p rest ih =>
    obtain ⟨a, b⟩ := p
    rw [List.map_cons] at hnd
    obtain ⟨hnd1, hnd2⟩ := List.nodup_cons.mp hnd
    rcases List.mem_cons.mp hm with heq | htail
    · injection heq with hk hw
      subst hk
      subst hw
      simp [lookupKey]
    · by_cases ha : a = k
      · subst ha
        exact absurd (List.mem_map_of_mem Prod.fst htail) hnd1
      · simpa [lookupKey, ha] using ih hnd2 htail

theorem mem_keys_insertKey (m : List (String × String)) (k v a : String)
    (h : a ∈ (insertKey m k v).map Prod.fst) :
    a ∈ m.map Prod.fst ∨ a = k := by
  induction m with
  | nil =>
    right
    simpa [insertKey] using h
  | cons p rest ih =>
    obtain ⟨x, y⟩ := p
    by_cases hx : x = k
    · subst hx
      have he : insertKey ((x, y) :: rest) x v = (x, v) :: rest := by
        simp [insertKey]
      rw [he, List.map_cons] at h
      rcases List.mem_cons.mp h with h | h
      · exact Or.inr h
      · exact Or.inl (by rw [List.map_cons]; exact List.mem_cons_of_mem _ h)
    · have he : insertKey ((x, y) :: rest) k v = (x, y) :: insertKey rest k v := by
        simp [insertKey, hx]
      rw [he, List.map_cons] at h
      rcases List.mem_cons.mp h with h | h
      · exact Or.inl (by rw [List.map_cons, h]; exact List.mem_cons_self _ _)
      · rcases ih h with h2 | h2
        · exact Or.inl (by rw [List.map_cons]; exact List.mem_cons_of_mem _ h2)
        · exact Or.inr h2

theorem nodup_insertKey (m : List (String × String)) (k v : String)
    (hnd : (m.map Prod.fst).Nodup) :
    ((insertKey m k v).map Prod.fst).Nodup := by
  induction m with
  | nil => simp [insertKey]
  | cons p rest ih =>
    obtain ⟨a, b⟩ := p
    rw [List.map_cons] at hnd
    obtain ⟨h1, h2⟩ := List.nodup_cons.mp hnd
    by_cases ha : a = k
    · subst ha
      have he : insertKey ((a, b) :: rest) a v = (a, v) :: rest := by
        simp [insertKey]
      rw [he, List.map_cons]
      exact List.nodup_cons.mpr ⟨h1, h2⟩
    · have he : insertKey ((a, b) :: rest) k v = (a, b) :: insertKey rest k v := by
        simp [insertKey, ha]
      rw [he, List.map_cons]
      refine List.nodup_cons.mpr ⟨?_, ih h2⟩
      intro hmem
      rcases mem_keys_insertKey rest k v a hmem with hh | hh
      · exact h1 hh
      · exact ha hh

theorem nodup_evictOne (m : List (String × String))
    (hnd : (m.map Prod.fst).Nodup) : ((evictOne m).map Prod.fst).Nodup :=
  (((evictOne_sublist m).map Prod.fst).nodup hnd)

theorem nodup_eraseKey (m : List (String × String)) (k : String)
    (hnd : (m.map Prod.fst).Nodup) : ((eraseKey m k).map Prod.fst).Nodup :=
  (((eraseKey_sublist m k).map Prod.fst).nodup hnd)

theorem lookupKey_evictOne_some (m : List (String × String)) (k w : String)
    (hnd : (m.map Prod.fst).Nodup)
    (h : lookupKey (evictOne m) k = some w) : lookupKey m k = some w :=
  lookupKey_of_mem_nodup m k w hnd
    ((evictOne_sublist m).subset (mem_of_lookupKey _ k w h))

theorem length_evictOne (m : List (String × String)) :
    (evictOne m).length = m.length - 1 := by
  cases m <;> simp [evictOne]

/-! Cache-level lemmas. -/

theorem nodup_cache_set (c : Cache) (k v : String)
    (hnd : (c.items.map Prod.fst).Nodup) :
    ((c.Set k v).items.map Prod.fst).Nodup := by
  simp only [Cache.Set]
  refine nodup_insertKey _ k v ?_
  split
  · exact nodup_evictOne _ hnd
  · exact hnd

theorem lookupKey_set_self (c : Cache) (k v : String) :
    lookupKey (c.Set k v).items k = some v := by
  simp only [Cache.Set]
  exact lookupKey_insertKey_self _ k v

theorem lookupKey_set_other_some (c : Cache) (k v k2 u : String)
    (hne : k2 ≠ k) (hnd : (c.items.map Prod.fst).Nodup)
    (h : lookupKey (c.Set k v).items k2 = some u) :
    lookupKey c.items k2 = some u := by
  simp only [Cache.Set] at h
  rw [lookupKey_insertKey_ne _ k v k2 hne] at h
  revert h
  split
  · intro h
    exact lookupKey_evictOne_some _ k2 u hnd h
  · intro h
    exact h

theorem length_set_le (c : Cache) (k v : String) (hcap : 1 ≤ c.maxSize)
    (hlen : c.items.length ≤ c.maxSize) :
    (c.Set k v).items.length ≤ c.maxSize := by
  simp only [Cache.Set]
  by_cases h : c.maxSize ≤ c.items.length
  · rw [if_pos h]
    have h1 : 1 ≤ c.items.length := le_trans hcap h
    calc (insertKey (evictOne c.items) k v).length
        ≤ (evictOne c.items).length + 1 := length_insertKey_le _ k v
      _ = c.items.length - 1 + 1 := by rw [length_evictOne]
      _ ≤ c.maxSize := by omega
  · rw [if_neg h]
    calc (insertKey c.items k v).length
        ≤ c.items.length + 1 := length_insertKey_le _ k v
      _ ≤ c.maxSize := by omega

theorem run_maxSize (ops : List Op) (c : Cache) :
    (c.run ops).maxSize = c.maxSize := by
  induction ops generalizing c with
  | nil => rfl
  | cons op rest ih =>
    cases op with
    | get k =>
      cases h : lookupKey c.items k <;>
        simp [Cache.run, Cache.Get, h, ih]
    | set k v => simp [Cache.run, Cache.Set, ih]
    | del k => simp [Cache.run, Cache.Delete, ih]

theorem run_length_le (ops : List Op) (c : Cache) (hcap : 1 ≤ c.maxSize)
    (hlen : c.items.length ≤ c.maxSize) :
    (c.run ops).items.length ≤ c.maxSize := by
  induction ops generalizing c with
  | nil => exact hlen
  | cons op rest ih =>
    cases op with
    | get k =>
      cases h : lookupKey c.items k with
      | some v =>
        have := ih { c with hits := c.hits + 1 } hcap hlen
        simpa [Cache.run, Cache.Get, h] using this
      | none =>
        have := ih { c with misses := c.misses + 1 } hcap hlen
        simpa [Cache.run, Cache.Get, h] using this
    | set k v =>
      have := ih (c.Set k v) hcap (length_set_le c k v hcap hlen)
      simpa [Cache.run] using this
    | del k =>
      have h1 : (c.Delete k).items.length ≤ c.maxSize :=
        le_trans (eraseKey_sublist c.items k).length_le hlen
      have := ih (c.Delete k) hcap h1
      simpa [Cache.run] using this

theorem run_counts (ops : List Op) (c : Cache) :
    (c.run ops).hits + (c.run ops).misses = c.hits + c.misses + countGets ops := by
  induction ops generalizing c with
  | nil => simp [Cache.run, countGets]
  | cons op rest ih =>
    cases op with
    | get k =>
      cases h : lookupKey c.items k with
      | some v =>
        have := ih { c with hits := c.hits + 1 }
        simp only [Cache.run, Cache.Get, h, countGets] at this ⊢
        omega
      | none =>
        have := ih { c with misses := c.misses + 1 }
        simp only [Cache.run, Cache.Get, h, countGets] at this ⊢
        omega
    | set k v =>
      have := ih (c.Set k v)
      simp only [Cache.run, Cache.Set, countGets] at this ⊢
      omega
    | del k =>
      have := ih (c.Delete k)
      simp only [Cache.run, Cache.Delete, countGets] at this ⊢
      omega

/-! Server-level lemmas: a request that leaves key `k` alone preserves
the facts that the store durably holds `v` at `k` and that any cached
value at `k` is `v`. -/

theorem step_preserves_key (k v : String) (s : Server) (op : SOp)
    (hav : avoidsKey k op = true)
    (hnd : (s.cache.items.map Prod.fst).Nodup)
    (hdb : lookupKey s.db k = some v)
    (hc : ∀ w, lookupKey s.cache.items k = some w → w = v) :
    ((s.step op).cache.items.map Prod.fst).Nodup ∧
    lookupKey (s.step op).db k = some v ∧
    ∀ w, lookupKey (s.step op).cache.items k = some w → w = v := by
  cases op with
  | get k2 q =>
    cases hl : lookupKey s.cache.items k2 with
    | some u =>
      refine ⟨?_, ?_, ?_⟩
      · simpa [Server.step, handleGet, Cache.Get, hl] using hnd
      · simpa [Server.step, handleGet, Cache.Get, hl] using hdb
      · simpa [Server.step, handleGet, Cache.Get, hl] using hc
    | none =>
      cases q with
      | fail =>
        refine ⟨?_, ?_, ?_⟩
        · simpa [Server.step, handleGet, Cache.Get, hl] using hnd
        · simpa [Server.step, handleGet, Cache.Get, hl] using hdb
        · simpa [Server.step, handleGet, Cache.Get, hl] using hc
      | ok =>
        cases hdb2 : lookupKey s.db k2 with
        | none =>
          refine ⟨?_, ?_, ?_⟩
          · simpa [Server.step, handleGet, Cache.Get, hl, hdb2] using hnd
          · simpa [Server.step, handleGet, Cache.Get, hl, hdb2] using hdb
          · simpa [Server.step, handleGet, Cache.Get, hl, hdb2] using hc
        | some u =>
          have hcache : (s.step (SOp.get k2 StoreOutcome.ok)).cache
              = Cache.Set { s.cache with misses := s.cache.misses + 1 } k2 u := by
            simp [Server.step, handleGet, Cache.Get, hl, hdb2]
          refine ⟨?_, ?_, ?_⟩
          · rw [hcache]
            exact nodup_cache_set _ k2 u hnd
          · simpa [Server.step, handleGet, Cache.Get, hl, hdb2] using hdb
          · intro w hw
            rw [hcache] at hw
            by_cases hk : k2 = k
            · subst hk
              rw [lookupKey_set_self] at hw
              have huv : u = v := Option.some.inj (hdb2.symm.trans hdb)
              rw [← Option.some.inj hw]
              exact huv
            · exact hc w
                (lookupKey_set_other_some _ k2 u k w (Ne.symm hk) hnd hw)
  | put k2 w2 q =>
    have hne : k2 ≠ k := by simpa [avoidsKey] using hav
    cases q with
    | fail => exact ⟨hnd, hdb, hc⟩
    | ok =>
      refine ⟨?_, ?_, ?_⟩
      · exact nodup_cache_set s.cache k2 w2 hnd
      · show lookupKey (insertKey s.db k2 w2) k = some v
        rw [lookupKey_insertKey_ne s.db k2 w2 k (Ne.symm hne)]
        exact hdb
      · intro w hw
        exact hc w (lookupKey_set_other_some s.cache k2 w2 k w (Ne.symm hne) hnd hw)
  | del k2 q =>
    have hne : k2 ≠ k := by simpa [avoidsKey] using hav
    cases q with
    | fail => exact ⟨hnd, hdb, hc⟩
    | ok =>
      refine ⟨?_, ?_, ?_⟩
      · exact nodup_eraseKey s.cache.items k2 hnd
      · show lookupKey (eraseKey s.db k2) k = some v
        rw [lookupKey_eraseKey_ne s.db k2 k (Ne.symm hne)]
        exact hdb
      · intro w hw
        have hw2 : lookupKey s.cache.items k = some w := by
          have he : (s.step (SOp.del k2 StoreOutcome.ok)).cache.items
              = eraseKey s.cache.items k2 := rfl
          rw [he, lookupKey_eraseKey_ne s.cache.items k2 k (Ne.symm hne)] at hw
          exact hw
        exact hc w hw2

theorem run_preserves_key (k v : String) (ops : List SOp) (s : Server)
    (hav : ∀ op ∈ ops, avoidsKey k op = true)
    (hnd : (s.cache.items.map Prod.fst).Nodup)
    (hdb : lookupKey s.db k = some v)
    (hc : ∀ w, lookupKey s.cache.items k = some w → w = v) :
    (((s.run ops).cache.items.map Prod.fst).Nodup) ∧
    lookupKey (s.run ops).db k = some v ∧
    ∀ w, lookupKey (s.run ops).cache.items k = some w → w = v := by
  induction ops generalizing s with
  | nil => exact ⟨hnd, hdb, hc⟩
  | cons op rest ih =>
    have h1 := step_preserves_key k v s op (hav op (List.mem_cons_self _ _)) hnd hdb hc
    have h2 := ih (s.step op) (fun o ho => hav o (List.mem_cons_of_mem _ ho))
      h1.1 h1.2.1 h1.2.2
    simpa [Server.run] using h2

/-! Claim theorems. -/

/-- C1 counterexample: with capacity 2 fill the cache with `b` and `a`;
key `a` is resident and the cache is at maximum capacity, so per the
claim `Set("a","3")` must evict nothing — yet afterwards entry `b` is
gone: the code evicts whenever the size test fires, resident key or
not. -/
theorem set_at_capacity_resident_still_evicts :
    lookupKey (((NewCache 2).Set "b" "2").Set "a" "1").items "a" = some "1" ∧
    lookupKey (((NewCache 2).Set "b" "2").Set "a" "1").items "b" = some "2" ∧
    (((NewCache 2).Set "b" "2").Set "a" "1").maxSize
      ≤ (((NewCache 2).Set "b" "2").Set "a" "1").items.length ∧
    lookupKey ((((NewCache 2).Set "b" "2").Set "a" "1").Set "a" "3").items "b"
      = none := by
  decide

/-- C1 (amended): `Set(key, value)` always leaves `key` mapped to
`value`; when the resident count is below capacity nothing is evicted
(all other keys keep their bindings); when the resident count has
reached capacity (and the cache is nonempty) exactly one resident entry
— an arbitrary victim, here the first listed pair, regardless of
whether `key` is already resident — is evicted before the insertion:
every other key keeps its binding, the victim's key (when distinct from
`key`) is no longer resident, and the resident count does not grow. -/
theorem set_eviction_spec (c : Cache) (key value : String)
    (hnd : (c.items.map Prod.fst).Nodup) :
    lookupKey (c.Set key value).items key = some value ∧
    (c.items.length < c.maxSize →
      ∀ k, k ≠ key → lookupKey (c.Set key value).items k = lookupKey c.items k) ∧
    (c.items = [] → (c.Set key value).items = [(key, value)]) ∧
    (c.maxSize ≤ c.items.length → ∀ p t, c.items = p :: t →
      (∀ k, k ≠ key → k ≠ p.1 →
        lookupKey (c.Set key value).items k = lookupKey c.items k) ∧
      (p.1 ≠ key → lookupKey (c.Set key value).items p.1 = none) ∧
      (c.Set key value).items.length ≤ c.items.length) := by
  refine ⟨lookupKey_set_self c key value, ?_, ?_, ?_⟩
  · intro hlt k hk
    have hn : ¬ c.maxSize ≤ c.items.length := by omega
    simp only [Cache.Set, if_neg hn]
    exact lookupKey_insertKey_ne _ key value k hk
  · intro he
    simp [Cache.Set, he, evictOne, insertKey]
  · intro hge p t hpt
    obtain ⟨a, b⟩ := p
    have hset : (c.Set key value).items = insertKey t key value := by
      have hge2 : c.maxSize ≤ ((a, b) :: t).length := hpt ▸ hge
      simp only [Cache.Set, hpt, evictOne, if_pos hge2]
    rw [hpt, List.map_cons] at hnd
    obtain ⟨h1, h2⟩ := List.nodup_cons.mp hnd
    refine ⟨?_, ?_, ?_⟩
    · intro k hk hkp
      have hk2 : ¬ a = k := fun h => hkp (h ▸ rfl)
      rw [hset, lookupKey_insertKey_ne _ key value k hk, hpt]
      simp [lookupKey, hk2]
    · intro hpk
      rw [hset, lookupKey_insertKey_ne _ key value _ hpk]
      exact lookupKey_eq_none_of_not_mem t _ h1
    · rw [hset, hpt]
      calc (insertKey t key value).length
          ≤ t.length + 1 := length_insertKey_le _ _ _
        _ = ((a, b) :: t).length := by simp

/-- C1 witness: the amended theorem applied to the concrete at-capacity
cache of the counterexample. -/
theorem set_eviction_spec_witness :
    lookupKey ((((NewCache 2).Set "b" "2").Set "a" "1").Set "a" "3").items "a"
      = some "3" :=
  (set_eviction_spec (((NewCache 2).Set "b" "2").Set "a" "1") "a" "3"
    (by decide)).1

/-- C2 counterexample: with configured capacity 0 a single `Set` still
inserts (the eviction loop over the empty map does nothing), so one
entry is resident and the bound is exceeded. -/
theorem capacity_zero_exceeded :
    ¬ ((NewCache 0).run [Op.set "a" "1"]).items.length
        ≤ (NewCache 0).maxSize := by
  decide

/-- C2 (amended): provided the configured maximum capacity is at least
1, the number of resident entries never exceeds it over any sequence of
`Set`, `Get` and `Delete` calls starting from a fresh cache. -/
theorem run_capacity_bound (maxSize : Nat) (hcap : 1 ≤ maxSize)
    (ops : List Op) :
    ((NewCache maxSize).run ops).items.length ≤ maxSize :=
  run_length_le ops (NewCache maxSize) hcap (by simp [NewCache])

/-- C2 witness: capacity 2, three inserts of distinct keys — at most 2
entries resident (the spec's concrete scenario 4). -/
theorem run_capacity_bound_witness :
    1 ≤ 2 ∧ ((NewCache 2).run
      [Op.set "a" "1", Op.set "b" "2", Op.set "c" "3"]).items.length ≤ 2 :=
  ⟨by decide, run_capacity_bound 2 (by decide)
    [Op.set "a" "1", Op.set "b" "2", Op.set "c" "3"]⟩

/-- C3: every `Get` bumps exactly one of the two counters — the hit
counter exactly when the key is resident, the miss counter exactly when
it is not, the other counter staying put — and over any operation
sequence from a fresh cache the two counters sum to the number of `Get`
calls. -/
theorem get_counters_sum :
    (∀ (c : Cache) (k : String),
      (lookupKey c.items k ≠ none →
        (c.Get k).2.2.hits = c.hits + 1 ∧ (c.Get k).2.2.misses = c.misses) ∧
      (lookupKey c.items k = none →
        (c.Get k).2.2.hits = c.hits ∧ (c.Get k).2.2.misses = c.misses + 1)) ∧
    ∀ (maxSize : Nat) (ops : List Op),
      ((NewCache maxSize).run ops).hits + ((NewCache maxSize).run ops).misses
        = countGets ops := by
  constructor
  · intro c k
    constructor
    · intro hr
      cases h : lookupKey c.items k with
      | some v => simp [Cache.Get, h]
      | none => exact absurd h hr
    · intro h
      simp [Cache.Get, h]
  · intro maxSize ops
    simpa [NewCache] using run_counts ops (NewCache maxSize)

/-- C3 witness: a resident key bumps hits, an absent key bumps misses,
each at a concrete cache. -/
theorem get_counters_sum_witness :
    (((NewCache 4).Set "k" "v").Get "k").2.2.hits
        = ((NewCache 4).Set "k" "v").hits + 1 ∧
    ((NewCache 4).Get "x").2.2.misses = (NewCache 4).misses + 1 :=
  ⟨((get_counters_sum.1 ((NewCache 4).Set "k" "v") "k").1 (by decide)).1,
   ((get_counters_sum.1 (NewCache 4) "x").2 (by decide)).2⟩

/-- C4: `Read(key)` — on a cache hit the cached value is returned and
the store is never queried; on a miss the store is queried, and the
response and cache effect follow the store's answer: found fills the
cache via `Set` and returns the value, absent answers 404 with the
cache entries untouched, a store failure answers 500 with the cache
entries untouched; the durable contents are never modified. -/
theorem read_path_spec (s : Server) (key : String) (q : StoreOutcome) :
    (∀ v, lookupKey s.cache.items key = some v →
      (handleGet s key q).1 = Resp.body v ∧
      (handleGet s key q).2.2 = false ∧
      (handleGet s key q).2.1.cache.items = s.cache.items ∧
      (handleGet s key q).2.1.db = s.db) ∧
    (lookupKey s.cache.items key = none →
      (handleGet s key q).2.2 = true ∧
      (handleGet s key q).2.1.db = s.db ∧
      (q = StoreOutcome.fail →
        (handleGet s key q).1 = Resp.dbError ∧
        (handleGet s key q).2.1.cache.items = s.cache.items) ∧
      (q = StoreOutcome.ok → lookupKey s.db key = none →
        (handleGet s key q).1 = Resp.notFound ∧
        (handleGet s key q).2.1.cache.items = s.cache.items) ∧
      (∀ v, q = StoreOutcome.ok → lookupKey s.db key = some v →
        (handleGet s key q).1 = Resp.body v ∧
        (handleGet s key q).2.1.cache = ((s.cache.Get key).2.2).Set key v)) := by
  constructor
  · intro v hl
    simp [handleGet, Cache.Get, hl]
  · intro hl
    cases q with
    | fail => simp [handleGet, Cache.Get, hl]
    | ok =>
      cases hdb : lookupKey s.db key with
      | none => simp [handleGet, Cache.Get, hl, hdb]
      | some v => simp [handleGet, Cache.Get, hl, hdb]

/-- C4 witness: a hit on a cache holding `k ↦ v` answers `v` without
querying the store. -/
theorem read_path_spec_witness :
    (handleGet (Server.mk [] ((NewCache 4).Set "k" "v")) "k" StoreOutcome.ok).1
        = Resp.body "v" ∧
    (handleGet (Server.mk [] ((NewCache 4).Set "k" "v")) "k" StoreOutcome.ok).2.2
        = false :=
  ⟨((read_path_spec (Server.mk [] ((NewCache 4).Set "k" "v")) "k"
      StoreOutcome.ok).1 "v" (by decide)).1,
   ((read_path_spec (Server.mk [] ((NewCache 4).Set "k" "v")) "k"
      StoreOutcome.ok).1 "v" (by decide)).2.1⟩

/-- C5: `Write` and `Remove` touch the durable store first; the cache
mutation (`Set` resp. `Delete`) happens exactly when the store call
succeeds, and a failed store call answers 500 leaving the whole server
state (cache included) unchanged. -/
theorem write_remove_store_first (s : Server) (key value : String) :
    ((handlePut s key value StoreOutcome.fail).1 = Resp.dbError ∧
     (handlePut s key value StoreOutcome.fail).2 = s) ∧
    ((handlePut s key value StoreOutcome.ok).1 = Resp.okNoBody ∧
     (handlePut s key value StoreOutcome.ok).2.db = insertKey s.db key value ∧
     (handlePut s key value StoreOutcome.ok).2.cache = s.cache.Set key value) ∧
    ((handleDelete s key StoreOutcome.fail).1 = Resp.dbError ∧
     (handleDelete s key StoreOutcome.fail).2 = s) ∧
    ((handleDelete s key StoreOutcome.ok).1 = Resp.okNoBody ∧
     (handleDelete s key StoreOutcome.ok).2.db = eraseKey s.db key ∧
     (handleDelete s key StoreOutcome.ok).2.cache = s.cache.Delete key) :=
  ⟨⟨rfl, rfl⟩, ⟨rfl, rfl, rfl⟩, ⟨rfl, rfl⟩, ⟨rfl, rfl, rfl⟩⟩

/-- C6: read-your-write — after a successful `Write(k, v)`, any
sequence of requests that neither writes nor removes `k` (reads of `k`
and all operations on other keys are allowed, with arbitrary store
outcomes) leaves a subsequent `Read(k)` answering `v`, whether it is
served from the cache or, after an eviction, refetched from the durable
store. -/
theorem read_your_write (s : Server) (k v : String) (ops : List SOp)
    (hnd : (s.cache.items.map Prod.fst).Nodup)
    (hav : ∀ op ∈ ops, avoidsKey k op = true) :
    (handleGet ((handlePut s k v StoreOutcome.ok).2.run ops) k StoreOutcome.ok).1
      = Resp.body v := by
  have h0nd : ((handlePut s k v StoreOutcome.ok).2.cache.items.map Prod.fst).Nodup :=
    nodup_cache_set s.cache k v hnd
  have h0db : lookupKey (handlePut s k v StoreOutcome.ok).2.db k = some v :=
    lookupKey_insertKey_self s.db k v
  have h0c : ∀ w,
      lookupKey (handlePut s k v StoreOutcome.ok).2.cache.items k = some w →
      w = v := by
    intro w hw
    have he : (handlePut s k v StoreOutcome.ok).2.cache = s.cache.Set k v := rfl
    rw [he, lookupKey_set_self] at hw
    exact (Option.some.inj hw).symm
  obtain ⟨h1, h2, h3⟩ := run_preserves_key k v ops _ hav h0nd h0db h0c
  cases hl : lookupKey ((handlePut s k v StoreOutcome.ok).2.run ops).cache.items k with
  | some w =>
    have hwv : w = v := h3 w hl
    simp [handleGet, Cache.Get, hl, hwv]
  | none =>
    simp [handleGet, Cache.Get, hl, h2]

/-- C6 witness: write `foo ↦ bar`, then a write to another key, a read
of `foo`, and a failing delete of another key; the final read still
answers `bar`. -/
theorem read_your_write_witness :
    (handleGet ((handlePut (Server.mk [] (NewCache 2)) "foo" "bar"
        StoreOutcome.ok).2.run
      [SOp.put "x" "1" StoreOutcome.ok, SOp.get "foo" StoreOutcome.ok,
       SOp.del "x" StoreOutcome.fail]) "foo" StoreOutcome.ok).1
      = Resp.body "bar" :=
  read_your_write (Server.mk [] (NewCache 2)) "foo" "bar"
    [SOp.put "x" "1" StoreOutcome.ok, SOp.get "foo" StoreOutcome.ok,
     SOp.del "x" StoreOutcome.fail] (by decide) (by decide)

/-- C7: the handler reads the inbound payload with a single
fixed-buffer `Read` whose error is discarded — a payload arriving in
two chunks is silently truncated to its first chunk and stored with a
200 response even though the read also reported an error; the full
payload is never read and no failure is surfaced, contradicting the
required behaviour. -/
theorem put_truncates_payload :
    (handlePutRaw (Server.mk [] (NewCache 4)) "k" ["ab", "cd"] true
        StoreOutcome.ok).1 = Resp.okNoBody ∧
    lookupKey (handlePutRaw (Server.mk [] (NewCache 4)) "k" ["ab", "cd"] true
        StoreOutcome.ok).2.db "k" = some "ab" ∧
    firstRead ["ab", "cd"] ≠ fullPayload ["ab", "cd"] := by
  decide

/-- C9: `Set` and `Delete` never change the hit and miss counters; only
`Get` updates them. -/
theorem set_delete_preserve_counters (c : Cache) (k v : String) :
    (c.Set k v).hits = c.hits ∧ (c.Set k v).misses = c.misses ∧
    (c.Delete k).hits = c.hits ∧ (c.Delete k).misses = c.misses :=
  ⟨rfl, rfl, rfl, rfl⟩

/-- C10: `Get` on a key that is not resident returns the empty string
together with `found = false`. -/
theorem get_absent_empty (c : Cache) (k : String)
    (h : lookupKey c.items k = none) :
    (c.Get k).1 = "" ∧ (c.Get k).2.1 = false := by
  simp [Cache.Get, h]

/-- C10 witness: a fresh cache misses on `x` and returns the empty
string. -/
theorem get_absent_empty_witness :
    ((NewCache 8).Get "x").1 = "" ∧ ((NewCache 8).Get "x").2.1 = false :=
  get_absent_empty (NewCache 8) "x" rfl

end KVServer
